import Mathlib

/-!
Verification of the bloom filter module of lcdb (src/util/bloom.c).

The module is embedded shallowly:

* A key is an opaque byte sequence (`List Nat`); the external 32-bit hash
  primitive `rdb_hash` (hash.c, outside this module) is a parameter of every
  operation, reduced mod 2^32 because it returns `uint32_t`.
* Byte buffers and encoded filters are `List Nat`; `uint32_t` arithmetic is
  `Nat` arithmetic reduced by `u32`; the `size_t` arithmetic of
  `rdb_bloom_size` is `Nat` arithmetic reduced by `u64` (mod 2^64), exactly
  where the C wraps. List lengths themselves are unbounded `Nat`, which can
  diverge from C only for objects of at least 2^61 bytes, beyond any
  realizable address space.
* The probe loops of `rdb_bloom_add_` and `rdb_bloom_match_` are structural
  recursions on the probe count; the matcher returns `Option Bool`, with
  `none` an explicit out-of-bounds / division-by-zero branch standing for the
  C reads that would be undefined behaviour (shown unreachable below), and
  `some b` the int result of the C function.
-/

/-- A key: an opaque byte sequence, only ever consumed by the hash. -/
abbrev Key := List Nat

/-- The external 32-bit keyed hash primitive (`rdb_hash` with the fixed seed
0xbc9f1d34 already applied), modeled as an arbitrary function: every theorem
below holds for every such function. -/
abbrev HashFn := Key → Nat

/-- Truncation to `uint32_t`. -/
def u32 (x : Nat) : Nat := x % 2 ^ 32

/-- Truncation to `size_t` (64-bit). -/
def u64 (x : Nat) : Nat := x % 2 ^ 64

/-- rdb_bloom_hash: `rdb_hash(key->data, key->size, 0xbc9f1d34)`; the result
is a `uint32_t`, hence the reduction mod 2^32. -/
def rdb_bloom_hash (hashFn : HashFn) (key : Key) : Nat := u32 (hashFn key)

/-- `delta = (hash >> 17) | (hash << 15)` on `uint32_t` (rotate right 17). -/
def bloomDelta (h : Nat) : Nat := (h >>> 17) ||| u32 (h <<< 15)

/-- `data[pos / 8] |= (1 << (pos % 8))`. An out-of-range write (undefined
behaviour in C, excluded by the caller contract `bits <= 8 * length`) is a
no-op here because `List.set` ignores out-of-range indices. -/
def setBit (data : List Nat) (pos : Nat) : List Nat :=
  data.set (pos / 8) (data.getD (pos / 8) 0 ||| (1 <<< (pos % 8)))

/-- `(data[pos / 8] & (1 << (pos % 8))) != 0`: bit `pos` of the bit array. -/
def bitGet (data : List Nat) (pos : Nat) : Bool :=
  data.getD (pos / 8) 0 &&& (1 <<< (pos % 8)) != 0

/-- The probe loop of rdb_bloom_add_: `k` iterations of
`pos = hash % bits; data[pos / 8] |= 1 << (pos % 8); hash += delta`,
with `hash` a `uint32_t`. -/
def addLoop (bits delta : Nat) : Nat → Nat → List Nat → List Nat
  | 0, _, data => data
  | k + 1, h, data => addLoop bits delta k (u32 (h + delta)) (setBit data (h % bits))

/-- rdb_bloom_add_ with the one field it reads from the policy, `bloom->k`,
passed explicitly (a Lean structure cannot store functions over itself, so
this is the value stored in the `add` function-pointer field below). -/
def rdb_bloom_add_impl (hashFn : HashFn) (k : Nat) (data : List Nat)
    (key : Key) (bits : Nat) : List Nat :=
  let h := rdb_bloom_hash hashFn key
  addLoop bits (bloomDelta h) k h data

/-- The probe loop of rdb_bloom_match_: `k` iterations of
`pos = hash % bits; if ((data[pos / 8] & (1 << (pos % 8))) == 0) return 0;
hash += delta`. The `none` branches mark division by zero and the
out-of-range read, both undefined behaviour in C. -/
def matchLoop (data : List Nat) (bits delta : Nat) : Nat → Nat → Option Bool
  | 0, _ => some true
  | k + 1, h =>
    if bits = 0 then none
    else
      let pos := h % bits
      if pos / 8 < data.length then
        if bitGet data pos then matchLoop data bits delta k (u32 (h + delta))
        else some false
      else none

/-- rdb_bloom_match_ without the ignored policy argument (the value stored in
the `matchImpl` function-pointer field below): length guard, `bits`, trailing
`k` byte, reserved-encoding guard, then the probe loop. -/
def rdb_bloom_match_impl (hashFn : HashFn) (filter : List Nat) (key : Key) :
    Option Bool :=
  let len := filter.length
  if len < 2 then some false
  else
    let bits := (len - 1) * 8
    let k := filter.getD (len - 1) 0
    if k > 30 then some true
    else
      let h := rdb_bloom_hash hashFn key
      matchLoop filter bits (bloomDelta h) k h

/-- The policy structure rdb_bloom_t. The `add` and `matchImpl` fields model
the function pointers `.add` and `.match`; since the C functions receive the
policy itself and read only `bloom->k` (add) or nothing (match), the stored
functions take the probe count explicitly instead of the policy. -/
structure rdb_bloom_t where
  name : String
  add : HashFn → Nat → List Nat → Key → Nat → List Nat
  matchImpl : HashFn → List Nat → Key → Option Bool
  bits_per_key : Int
  k : Nat
  user_policy : Option Unit

/-- rdb_bloom_add_: the builder, dispatching on `bloom->k`. -/
def rdb_bloom_add_ (hashFn : HashFn) (bloom : rdb_bloom_t) (data : List Nat)
    (key : Key) (bits : Nat) : List Nat :=
  rdb_bloom_add_impl hashFn bloom.k data key bits

set_option linter.unusedVariables false in
/-- rdb_bloom_match_: the matcher; the source discards its policy argument
(`(void)bloom`). -/
def rdb_bloom_match_ (hashFn : HashFn) (bloom : rdb_bloom_t)
    (filter : List Nat) (key : Key) : Option Bool :=
  rdb_bloom_match_impl hashFn filter key

/-- The static default policy `bloom_default`
(bits_per_key 10, k 6, the builtin add/match). -/
def bloom_default : rdb_bloom_t :=
  { name := "filter.leveldb.BuiltinBloomFilter2"
    add := rdb_bloom_add_impl
    matchImpl := rdb_bloom_match_impl
    bits_per_key := 10
    k := 6
    user_policy := none }

/-- The global `rdb_bloom_default` pointer. -/
def rdb_bloom_default : rdb_bloom_t := bloom_default

/-- The IEEE-754 binary64 value nearest 0.69, as the exact rational
6214967485771284 / 2^53 = 1553741871442821 / 2^51 (the source computes
`bits_per_key * 0.69`). -/
def fl069num : Nat := 6214967485771284

/-- rdb_bloom_init: `k = (size_t)(bits_per_key * 0.69)`, then clamped to
[1, 30]. The double product is modeled as the exact rational
bits_per_key * fl069num / 2^53 before the floor: for 0 ≤ bits_per_key ≤ 44
the rounding of the product to binary64 never moves it across an integer
(checked for each value: the product is always many ulps away from an
integer), so the floor below is the value the C code computes; for
bits_per_key ≥ 45 both the C value and this model are ≥ 31 and clamp to 30.
A negative bits_per_key is undefined behaviour in C (negative double to
size_t) and is modeled via `Int.toNat` as 0. -/
def rdb_bloom_init (bits_per_key : Int) : rdb_bloom_t :=
  let k0 := bits_per_key.toNat * fl069num / 2 ^ 53
  let k1 := if k0 < 1 then 1 else k0
  let k2 := if k1 > 30 then 30 else k1
  { name := bloom_default.name
    add := rdb_bloom_add_impl
    matchImpl := rdb_bloom_match_impl
    bits_per_key := bits_per_key
    k := k2
    user_policy := none }

/-- rdb_bloom_create: allocation plus rdb_bloom_init. -/
def rdb_bloom_create (bits_per_key : Int) : rdb_bloom_t :=
  rdb_bloom_init bits_per_key

/-- rdb_bloom_size: `bits = n * bits_per_key`, floored at 64, then
`(bits + 7) / 8`, all in `size_t` arithmetic, which wraps mod 2^64 both in
the product and in `bits + 7` (the division cannot wrap). The `int` field
bits_per_key enters `size_t` arithmetic via `Int.toNat`, faithful for the
nonnegative values the data model admits. -/
def rdb_bloom_size (bloom : rdb_bloom_t) (n : Nat) : Nat :=
  let bits := u64 (n * bloom.bits_per_key.toNat)
  let bits2 := if bits < 64 then 64 else bits
  u64 (bits2 + 7) / 8

/-- The i-th probe position of the double-hashing scheme: after `i`
additions of `delta` to `h` in `uint32_t` arithmetic, reduced mod `bits`. -/
def bloomPos (h delta bits i : Nat) : Nat := u32 (h + i * delta) % bits

/-- The matcher as the spec states it (claim C2): the guards of
rdb_bloom_match_, then true iff every one of the `k` probed bits is set in
the first `len - 1` bytes of the filter. -/
def bloomMatchSpec (hashFn : HashFn) (filter : List Nat) (key : Key) : Bool :=
  let len := filter.length
  if len < 2 then false
  else
    let bits := (len - 1) * 8
    let k := filter.getD (len - 1) 0
    if k > 30 then true
    else
      let h := rdb_bloom_hash hashFn key
      decide (∀ i < k, bitGet (filter.take (len - 1)) (bloomPos h (bloomDelta h) bits i))

/-! Claims C4, C5, C6, C8, C10. -/

/-- C4, counterexample: at bits_per_key = 13 the code derives k = 8
(floor of 13 times the binary64 value nearest 0.69, which is 8.9699...),
while clamp(floor(13 * ln 2), 1, 30) = clamp(floor(9.0109...), 1, 30) = 9. -/
theorem rdb_bloom_create_13_k_ne_ln2_formula :
    (rdb_bloom_create 13).k = 8 ∧
    max 1 (min 30 (⌊(13 : ℝ) * Real.log 2⌋.toNat)) = 9 ∧
    (rdb_bloom_create 13).k ≠ max 1 (min 30 (⌊(13 : ℝ) * Real.log 2⌋.toNat)) := by
  have hfloor : ⌊(13 : ℝ) * Real.log 2⌋ = 9 := by
    have h1 : (0.6931471803 : ℝ) < Real.log 2 := Real.log_two_gt_d9
    have h2 : Real.log 2 < (0.6931471808 : ℝ) := Real.log_two_lt_d9
    rw [Int.floor_eq_iff]
    push_cast
    constructor
    · nlinarith
    · nlinarith
  refine ⟨by decide, by rw [hfloor]; decide, by rw [hfloor]; decide⟩

set_option linter.unusedVariables false in
/-- C4, amended: for every bits_per_key ≥ 0, rdb_bloom_init (and hence
rdb_bloom_create) derives k = clamp(floor(bits_per_key * c), 1, 30) where
c = 6214967485770784 / 2^53 is the binary64 value nearest 0.69 that the
source multiplies by; in particular create 0 yields k = 1 and create 1000
yields k = 30. -/
theorem rdb_bloom_init_k_clamped (b : Int) (hb : 0 ≤ b) :
    (rdb_bloom_init b).k = max 1 (min 30 (b.toNat * fl069num / 2 ^ 53)) ∧
    (rdb_bloom_create b).k = max 1 (min 30 (b.toNat * fl069num / 2 ^ 53)) ∧
    (rdb_bloom_create 0).k = 1 ∧ (rdb_bloom_create 1000).k = 30 := by
  have aux : ∀ k0 : Nat,
      (if (if k0 < 1 then 1 else k0) > 30 then 30 else if k0 < 1 then 1 else k0) =
        max 1 (min 30 k0) := by
    intro k0
    split_ifs <;> omega
  exact ⟨aux _, aux _, rfl, rfl⟩

/-- C4, witness for the amended claim at bits_per_key = 13. -/
theorem rdb_bloom_init_k_clamped_witness :
    0 ≤ (13 : Int) ∧
    ((rdb_bloom_init 13).k = max 1 (min 30 ((13 : Int).toNat * fl069num / 2 ^ 53)) ∧
     (rdb_bloom_create 13).k = max 1 (min 30 ((13 : Int).toNat * fl069num / 2 ^ 53)) ∧
     (rdb_bloom_create 0).k = 1 ∧ (rdb_bloom_create 1000).k = 30) :=
  ⟨by decide, rdb_bloom_init_k_clamped 13 (by decide)⟩

/-- C5, counterexample: at n = 2 * 10^18 with the default policy
(bits_per_key 10), the size_t product 2 * 10^19 wraps mod 2^64, so the code
returns 194156990786306048 bytes, not ceil(max(n * bits_per_key, 64) / 8)
= 2.5 * 10^18. -/
theorem rdb_bloom_size_overflow_counterexample :
    rdb_bloom_size bloom_default 2000000000000000000 = 194156990786306048 ∧
    (max (2000000000000000000 * bloom_default.bits_per_key.toNat) 64 + 7) / 8
      = 2500000000000000000 ∧
    rdb_bloom_size bloom_default 2000000000000000000 ≠
      (max (2000000000000000000 * bloom_default.bits_per_key.toNat) 64 + 7) / 8 :=
  ⟨by decide, by decide, by decide⟩

set_option linter.unusedVariables false in
/-- C5, amended: for bits_per_key ≥ 0 and every n for which the size_t
arithmetic does not overflow (n * bits_per_key + 7 < 2^64), rdb_bloom_size
returns exactly ceil(max(n * bits_per_key, 64) / 8) bytes: it equals
(max(n * bits_per_key, 64) + 7) / 8, and it is the unique s with
max(n * bits_per_key, 64) ≤ 8 s < max(n * bits_per_key, 64) + 8. -/
theorem rdb_bloom_size_exact (bloom : rdb_bloom_t) (n : Nat)
    (hb : 0 ≤ bloom.bits_per_key)
    (hov : n * bloom.bits_per_key.toNat + 7 < 2 ^ 64) :
    rdb_bloom_size bloom n = (max (n * bloom.bits_per_key.toNat) 64 + 7) / 8 ∧
    max (n * bloom.bits_per_key.toNat) 64 ≤ 8 * rdb_bloom_size bloom n ∧
    8 * rdb_bloom_size bloom n < max (n * bloom.bits_per_key.toNat) 64 + 8 := by
  simp only [rdb_bloom_size, u64]
  split_ifs <;> omega

/-- C5, witness: the default policy (bits_per_key 10) at n = 2 gives
ceil(max(20, 64) / 8) = 8 bytes. -/
theorem rdb_bloom_size_exact_witness :
    0 ≤ bloom_default.bits_per_key ∧
    2 * bloom_default.bits_per_key.toNat + 7 < 2 ^ 64 ∧
    (rdb_bloom_size bloom_default 2 = (max (2 * bloom_default.bits_per_key.toNat) 64 + 7) / 8 ∧
     max (2 * bloom_default.bits_per_key.toNat) 64 ≤ 8 * rdb_bloom_size bloom_default 2 ∧
     8 * rdb_bloom_size bloom_default 2 < max (2 * bloom_default.bits_per_key.toNat) 64 + 8) :=
  ⟨by decide, by decide, rdb_bloom_size_exact bloom_default 2 (by decide) (by decide)⟩

/-- C6, counterexample: with the default policy (bits_per_key 10), size_t
wraparound makes rdb_bloom_size non-monotone (n = 1.9 * 10^18 yields fewer
bytes than n = 1.8 * 10^18), and at n = 1844674407370955161 the wrapped
bits + 7 makes it return 0 bytes, below the 8-byte floor. -/
theorem rdb_bloom_size_wrap_counterexample :
    (1800000000000000000 : Nat) ≤ 1900000000000000000 ∧
    rdb_bloom_size bloom_default 1900000000000000000
      < rdb_bloom_size bloom_default 1800000000000000000 ∧
    rdb_bloom_size bloom_default 1844674407370955161 = 0 :=
  ⟨by decide, by decide, by decide⟩

set_option linter.unusedVariables false in
/-- C6, amended: within the overflow-free size_t range
(n * bits_per_key + 7 < 2^64, bits_per_key ≥ 0), rdb_bloom_size is
monotonically non-decreasing in n and the returned bit-array length is
never below 8 bytes (64 bits). -/
theorem rdb_bloom_size_invariants (bloom : rdb_bloom_t) (n1 n2 : Nat)
    (hb : 0 ≤ bloom.bits_per_key) (h : n1 ≤ n2)
    (hov : n2 * bloom.bits_per_key.toNat + 7 < 2 ^ 64) :
    rdb_bloom_size bloom n1 ≤ rdb_bloom_size bloom n2 ∧
    ∀ n, n * bloom.bits_per_key.toNat + 7 < 2 ^ 64 →
      8 ≤ rdb_bloom_size bloom n := by
  constructor
  · have hm : n1 * bloom.bits_per_key.toNat ≤ n2 * bloom.bits_per_key.toNat :=
      Nat.mul_le_mul_right _ h
    simp only [rdb_bloom_size, u64]
    split_ifs <;> omega
  · intro n hovn
    simp only [rdb_bloom_size, u64]
    split_ifs <;> omega

/-- C6, witness: the default policy at n1 = 1, n2 = 100. -/
theorem rdb_bloom_size_invariants_witness :
    0 ≤ bloom_default.bits_per_key ∧ 1 ≤ 100 ∧
    100 * bloom_default.bits_per_key.toNat + 7 < 2 ^ 64 ∧
    (rdb_bloom_size bloom_default 1 ≤ rdb_bloom_size bloom_default 100 ∧
     ∀ n, n * bloom_default.bits_per_key.toNat + 7 < 2 ^ 64 →
       8 ≤ rdb_bloom_size bloom_default n) :=
  ⟨by decide, by decide, by decide,
    rdb_bloom_size_invariants bloom_default 1 100 (by decide) (by decide) (by decide)⟩

/-- C8: rdb_bloom_match_ ignores its policy argument, so any two policies
give the same answer on the same filter and key. -/
theorem rdb_bloom_match_policy_independent (hashFn : HashFn)
    (p1 p2 : rdb_bloom_t) (filter : List Nat) (key : Key) :
    rdb_bloom_match_ hashFn p1 filter key = rdb_bloom_match_ hashFn p2 filter key :=
  rfl

/-- C10: every policy produced by rdb_bloom_create / rdb_bloom_init carries
the same name string as the built-in default policy,
"filter.leveldb.BuiltinBloomFilter2", and the same add / match
implementations. -/
theorem rdb_bloom_init_name_invariant (b : Int) :
    (rdb_bloom_create b).name = bloom_default.name ∧
    (rdb_bloom_init b).name = bloom_default.name ∧
    bloom_default.name = "filter.leveldb.BuiltinBloomFilter2" ∧
    (rdb_bloom_create b).add = bloom_default.add ∧
    (rdb_bloom_create b).matchImpl = bloom_default.matchImpl :=
  ⟨rfl, rfl, rfl, rfl, rfl⟩

/-! Helper lemmas about the probe loops. -/

theorem u32_lt (x : Nat) : u32 x < 2 ^ 32 := Nat.mod_lt _ (by norm_num)

theorem rdb_bloom_hash_lt (hashFn : HashFn) (key : Key) :
    rdb_bloom_hash hashFn key < 2 ^ 32 := u32_lt _

theorem u32_probe_step (h delta i : Nat) :
    u32 (u32 (h + delta) + i * delta) = u32 (h + (i + 1) * delta) := by
  unfold u32
  rw [Nat.mod_add_mod]
  congr 1
  ring

theorem length_setBit (data : List Nat) (p : Nat) :
    (setBit data p).length = data.length :=
  List.length_set data _ _

theorem length_addLoop (bits delta k h : Nat) (data : List Nat) :
    (addLoop bits delta k h data).length = data.length := by
  induction k generalizing h data with
  | zero => rfl
  | succ k ih =>
    simp only [addLoop]
    rw [ih, length_setBit]

theorem bitGet_eq_testBit (data : List Nat) (pos : Nat) :
    bitGet data pos = (data.getD (pos / 8) 0).testBit (pos % 8) := by
  unfold bitGet
  rw [Nat.shiftLeft_eq, one_mul, Nat.and_two_pow]
  cases hx : (data.getD (pos / 8) 0).testBit (pos % 8) <;> simp [hx]

theorem getD_setBit_ne (data : List Nat) (q j : Nat) (hj : j ≠ q / 8) :
    (setBit data q).getD j 0 = data.getD j 0 := by
  unfold setBit
  rw [List.getD_eq_getElem?_getD, List.getElem?_set_ne (Ne.symm hj),
    ← List.getD_eq_getElem?_getD]

theorem getD_setBit_self (data : List Nat) (q : Nat) (hq : q / 8 < data.length) :
    (setBit data q).getD (q / 8) 0 = data.getD (q / 8) 0 ||| (1 <<< (q % 8)) := by
  unfold setBit
  rw [List.getD_eq_getElem?_getD]
  simp [List.getElem?_set_self, hq]

theorem bitGet_setBit (data : List Nat) (q pos : Nat) (hq : q / 8 < data.length) :
    bitGet (setBit data q) pos = true ↔ (bitGet data pos = true ∨ pos = q) := by
  by_cases hb : pos / 8 = q / 8
  · rw [bitGet_eq_testBit, bitGet_eq_testBit, hb, getD_setBit_self data q hq,
      Nat.shiftLeft_eq, one_mul, Nat.testBit_or]
    by_cases hm : pos % 8 = q % 8
    · have hpq : pos = q := by omega
      subst hpq
      simp [Nat.testBit_two_pow_self]
    · have hpq : pos ≠ q := by omega
      have hbit : (2 ^ (q % 8)).testBit (pos % 8) = false :=
        Nat.testBit_two_pow_of_ne (fun he => hm he.symm)
      simp [hbit, hpq]
  · rw [bitGet_eq_testBit, bitGet_eq_testBit, getD_setBit_ne data q _ hb]
    have hpq : pos ≠ q := fun he => hb (by rw [he])
    simp [hpq]

theorem bitGet_setBit_mono (data : List Nat) (q pos : Nat)
    (h : bitGet data pos = true) : bitGet (setBit data q) pos = true := by
  by_cases hlen : q / 8 < data.length
  · rw [bitGet_setBit data q pos hlen]
    exact Or.inl h
  · have hid : setBit data q = data := by
      unfold setBit
      exact List.set_eq_of_length_le (Nat.le_of_not_lt hlen)
    rw [hid]
    exact h

theorem addLoop_mono (bits delta k h : Nat) (data : List Nat) (pos : Nat)
    (hp : bitGet data pos = true) :
    bitGet (addLoop bits delta k h data) pos = true := by
  induction k generalizing h data with
  | zero => exact hp
  | succ k ih =>
    simp only [addLoop]
    exact ih _ _ (bitGet_setBit_mono _ _ _ hp)

theorem addLoop_bitGet (bits delta k h : Nat) (data : List Nat) (pos : Nat)
    (hbits : 0 < bits) (hsz : bits ≤ 8 * data.length) (hh : h < 2 ^ 32) :
    bitGet (addLoop bits delta k h data) pos = true ↔
      (bitGet data pos = true ∨ ∃ i < k, u32 (h + i * delta) % bits = pos) := by
  induction k generalizing h data with
  | zero => simp [addLoop]
  | succ k ih =>
    have hmod : h % bits < bits := Nat.mod_lt _ hbits
    have hq : (h % bits) / 8 < data.length := by omega
    simp only [addLoop]
    rw [ih (u32 (h + delta)) (setBit data (h % bits))
        (by rw [length_setBit]; exact hsz) (u32_lt _)]
    rw [bitGet_setBit data (h % bits) pos hq]
    have hu32h : u32 h = h := Nat.mod_eq_of_lt hh
    constructor
    · rintro ((hbg | rfl) | ⟨i, hi, hpos⟩)
      · exact Or.inl hbg
      · refine Or.inr ⟨0, by omega, ?_⟩
        rw [Nat.zero_mul, Nat.add_zero, hu32h]
      · refine Or.inr ⟨i + 1, by omega, ?_⟩
        rw [← u32_probe_step]
        exact hpos
    · rintro (hbg | ⟨i, hi, hpos⟩)
      · exact Or.inl (Or.inl hbg)
      · cases i with
        | zero =>
          refine Or.inl (Or.inr ?_)
          rw [← hpos, Nat.zero_mul, Nat.add_zero, hu32h]
        | succ i =>
          refine Or.inr ⟨i, by omega, ?_⟩
          rw [u32_probe_step]
          exact hpos

theorem addLoop_frame (bits delta k h : Nat) (data : List Nat) (j : Nat)
    (hbits : 0 < bits) (hj : (bits + 7) / 8 ≤ j) :
    (addLoop bits delta k h data).getD j 0 = data.getD j 0 := by
  induction k generalizing h data with
  | zero => rfl
  | succ k ih =>
    have hmod : h % bits < bits := Nat.mod_lt _ hbits
    simp only [addLoop]
    rw [ih]
    exact getD_setBit_ne data (h % bits) j (by omega)

theorem matchLoop_eq (data : List Nat) (bits delta k h : Nat)
    (hbits : 0 < bits) (hsz : bits ≤ 8 * data.length) (hh : h < 2 ^ 32) :
    matchLoop data bits delta k h =
      some (decide (∀ i < k, bitGet data (u32 (h + i * delta) % bits) = true)) := by
  induction k generalizing h with
  | zero => simp [matchLoop]
  | succ k ih =>
    have hmod : h % bits < bits := Nat.mod_lt _ hbits
    have hq : (h % bits) / 8 < data.length := by omega
    have hu32h : u32 h = h := Nat.mod_eq_of_lt hh
    simp only [matchLoop]
    rw [if_neg (Nat.pos_iff_ne_zero.mp hbits), if_pos hq]
    by_cases hbg : bitGet data (h % bits) = true
    · rw [if_pos hbg, ih (u32 (h + delta)) (u32_lt _)]
      congr 1
      rw [decide_eq_decide]
      constructor
      · intro H i hi
        cases i with
        | zero =>
          rw [Nat.zero_mul, Nat.add_zero, hu32h]
          exact hbg
        | succ i =>
          rw [← u32_probe_step]
          exact H i (by omega)
      · intro H i hi
        rw [u32_probe_step]
        exact H (i + 1) (by omega)
    · rw [if_neg hbg]
      have hnot : ¬ (∀ i < k + 1, bitGet data (u32 (h + i * delta) % bits) = true) := by
        intro H
        apply hbg
        have h0 := H 0 (by omega)
        rwa [Nat.zero_mul, Nat.add_zero, hu32h] at h0
      simp [hnot]

theorem bitGet_append (l1 l2 : List Nat) (pos : Nat) (hp : pos / 8 < l1.length) :
    bitGet (l1 ++ l2) pos = bitGet l1 pos := by
  unfold bitGet
  rw [List.getD_eq_getElem?_getD, List.getD_eq_getElem?_getD, List.getElem?_append]
  simp [hp]

theorem bitGet_take (l : List Nat) (n pos : Nat) (hp : pos / 8 < n) :
    bitGet (l.take n) pos = bitGet l pos := by
  unfold bitGet
  rw [List.getD_eq_getElem?_getD, List.getD_eq_getElem?_getD, List.getElem?_take]
  simp [hp]

theorem bloomDelta_rotr (h : Nat) (hh : h < 2 ^ 32) :
    bloomDelta h = h % 2 ^ 17 * 2 ^ 15 + h / 2 ^ 17 := by
  have hsplit : (2 : Nat) ^ 32 = 2 ^ 17 * 2 ^ 15 := by norm_num
  have hlow : u32 (h <<< 15) = h % 2 ^ 17 * 2 ^ 15 := by
    unfold u32
    rw [Nat.shiftLeft_eq, hsplit, Nat.mul_mod_mul_right]
  have hhi : h >>> 17 < 2 ^ 15 := by
    rw [Nat.shiftRight_eq_div_pow]
    omega
  unfold bloomDelta
  rw [hlow, Nat.shiftRight_eq_div_pow]
  calc h / 2 ^ 17 ||| h % 2 ^ 17 * 2 ^ 15
      = h % 2 ^ 17 * 2 ^ 15 ||| h / 2 ^ 17 := Nat.or_comm _ _
    _ = 2 ^ 15 * (h % 2 ^ 17) ||| h / 2 ^ 17 := by rw [Nat.mul_comm]
    _ = 2 ^ 15 * (h % 2 ^ 17) + h / 2 ^ 17 := by
        rw [← Nat.mul_add_lt_is_or (by rw [← Nat.shiftRight_eq_div_pow]; exact hhi) _]
    _ = h % 2 ^ 17 * 2 ^ 15 + h / 2 ^ 17 := by rw [Nat.mul_comm]

/-! Claims C2, C3, C7, C9. -/

/-- C2: for every policy, filter and key, rdb_bloom_match_ returns false when
the filter is shorter than 2 bytes; otherwise, with bits = (len - 1) * 8 and
k the trailing byte, it returns true unconditionally when k > 30, and
otherwise returns true iff for every i < k the bit at position
(h + i * delta mod 2^32) mod bits, h the hash of the key and delta its
rotation right by 17, is set in the first len - 1 bytes of the filter. -/
theorem rdb_bloom_match_spec_equiv (hashFn : HashFn) (bloom : rdb_bloom_t)
    (filter : List Nat) (key : Key) :
    rdb_bloom_match_ hashFn bloom filter key =
      some (bloomMatchSpec hashFn filter key) := by
  simp only [rdb_bloom_match_, rdb_bloom_match_impl, bloomMatchSpec]
  by_cases h2 : filter.length < 2
  · rw [if_pos h2, if_pos h2]
  · rw [if_neg h2, if_neg h2]
    by_cases hk : filter.getD (filter.length - 1) 0 > 30
    · rw [if_pos hk, if_pos hk]
    · rw [if_neg hk, if_neg hk]
      have hb : 0 < (filter.length - 1) * 8 := by omega
      rw [matchLoop_eq filter ((filter.length - 1) * 8) _ _ _ hb (by omega)
        (rdb_bloom_hash_lt hashFn key)]
      congr 1
      rw [decide_eq_decide]
      refine forall_congr' fun i => imp_congr_right fun hi => ?_
      simp only [bloomPos]
      have hmod : u32 (rdb_bloom_hash hashFn key +
            i * bloomDelta (rdb_bloom_hash hashFn key)) % ((filter.length - 1) * 8)
          < (filter.length - 1) * 8 := Nat.mod_lt _ hb
      rw [bitGet_take _ _ _ (by omega)]

/-- C3: with bits > 0 and a buffer holding at least bits bits, rdb_bloom_add_
preserves the buffer length, uses delta = rotate_right(h, 17) of the key hash
h, and the resulting buffer has exactly the bits at the k probe positions
(h + i * delta mod 2^32) mod bits additionally set. -/
theorem rdb_bloom_add_sets_exactly (hashFn : HashFn) (bloom : rdb_bloom_t)
    (data : List Nat) (key : Key) (bits : Nat)
    (hbits : 0 < bits) (hsz : bits ≤ 8 * data.length) :
    (rdb_bloom_add_ hashFn bloom data key bits).length = data.length ∧
    bloomDelta (rdb_bloom_hash hashFn key) =
      rdb_bloom_hash hashFn key % 2 ^ 17 * 2 ^ 15 +
        rdb_bloom_hash hashFn key / 2 ^ 17 ∧
    ∀ pos, bitGet (rdb_bloom_add_ hashFn bloom data key bits) pos = true ↔
      (bitGet data pos = true ∨
        ∃ i < bloom.k,
          bloomPos (rdb_bloom_hash hashFn key)
            (bloomDelta (rdb_bloom_hash hashFn key)) bits i = pos) := by
  refine ⟨?_, bloomDelta_rotr _ (u32_lt _), ?_⟩
  · simp only [rdb_bloom_add_, rdb_bloom_add_impl]
    exact length_addLoop _ _ _ _ _
  · intro pos
    simp only [rdb_bloom_add_, rdb_bloom_add_impl, bloomPos]
    exact addLoop_bitGet _ _ _ _ _ _ hbits hsz (u32_lt _)

/-- C3, witness at a one-byte buffer, bits = 8, the default policy and a
constant-zero hash. -/
theorem rdb_bloom_add_sets_exactly_witness :
    0 < 8 ∧ 8 ≤ 8 * ([0] : List Nat).length ∧
    ((rdb_bloom_add_ (fun _ => 0) bloom_default [0] [] 8).length
        = ([0] : List Nat).length ∧
      bloomDelta (rdb_bloom_hash (fun _ => 0) []) =
        rdb_bloom_hash (fun _ => 0) [] % 2 ^ 17 * 2 ^ 15 +
          rdb_bloom_hash (fun _ => 0) [] / 2 ^ 17 ∧
      ∀ pos, bitGet (rdb_bloom_add_ (fun _ => 0) bloom_default [0] [] 8) pos = true ↔
        (bitGet [0] pos = true ∨
          ∃ i < bloom_default.k,
            bloomPos (rdb_bloom_hash (fun _ => 0) [])
              (bloomDelta (rdb_bloom_hash (fun _ => 0) [])) 8 i = pos)) :=
  ⟨by decide, by decide,
    rdb_bloom_add_sets_exactly (fun _ => 0) bloom_default [0] [] 8
      (by decide) (by decide)⟩

/-- C7: with bits > 0, rdb_bloom_add_ only ever sets bits (every bit set
before stays set), leaves every byte at index at least ceil(bits / 8)
unchanged, preserves the length, and (being a total function) never fails. -/
theorem rdb_bloom_add_frame (hashFn : HashFn) (bloom : rdb_bloom_t)
    (data : List Nat) (key : Key) (bits : Nat) (hbits : 0 < bits) :
    (∀ pos, bitGet data pos = true →
      bitGet (rdb_bloom_add_ hashFn bloom data key bits) pos = true) ∧
    (∀ j, (bits + 7) / 8 ≤ j →
      (rdb_bloom_add_ hashFn bloom data key bits).getD j 0 = data.getD j 0) ∧
    (rdb_bloom_add_ hashFn bloom data key bits).length = data.length := by
  refine ⟨?_, ?_, ?_⟩ <;> simp only [rdb_bloom_add_, rdb_bloom_add_impl]
  · intro pos hp
    exact addLoop_mono _ _ _ _ _ _ hp
  · intro j hj
    exact addLoop_frame _ _ _ _ _ _ hbits hj
  · exact length_addLoop _ _ _ _ _

/-- C7, witness at a one-byte buffer, bits = 8, the default policy and a
constant-zero hash. -/
theorem rdb_bloom_add_frame_witness :
    0 < 8 ∧
    ((∀ pos, bitGet [0] pos = true →
        bitGet (rdb_bloom_add_ (fun _ => 0) bloom_default [0] [] 8) pos = true) ∧
      (∀ j, (8 + 7) / 8 ≤ j →
        (rdb_bloom_add_ (fun _ => 0) bloom_default [0] [] 8).getD j 0
          = ([0] : List Nat).getD j 0) ∧
      (rdb_bloom_add_ (fun _ => 0) bloom_default [0] [] 8).length
        = ([0] : List Nat).length) :=
  ⟨by decide, rdb_bloom_add_frame (fun _ => 0) bloom_default [0] [] 8 (by decide)⟩

/-- C9: on a filter of length at least 2, bits = (len - 1) * 8 is at least 8
(so the modulo never divides by zero), every probed byte index lies inside
the bit-array portion (index below len - 1), and rdb_bloom_match_ never
reaches its out-of-bounds / division-by-zero branch (it always returns
some result). -/
theorem rdb_bloom_match_inbounds (hashFn : HashFn) (bloom : rdb_bloom_t)
    (filter : List Nat) (key : Key) (hlen : 2 ≤ filter.length) :
    8 ≤ (filter.length - 1) * 8 ∧
    (∀ h : Nat, h % ((filter.length - 1) * 8) / 8 < filter.length - 1) ∧
    (rdb_bloom_match_ hashFn bloom filter key).isSome = true := by
  have hb : 0 < (filter.length - 1) * 8 := by omega
  refine ⟨by omega, ?_, ?_⟩
  · intro h
    have := Nat.mod_lt h hb
    omega
  · simp only [rdb_bloom_match_, rdb_bloom_match_impl]
    rw [if_neg (by omega : ¬ filter.length < 2)]
    by_cases hk : filter.getD (filter.length - 1) 0 > 30
    · rw [if_pos hk]
      rfl
    · rw [if_neg hk]
      rw [matchLoop_eq filter ((filter.length - 1) * 8) _ _ _ hb (by omega)
        (rdb_bloom_hash_lt hashFn key)]
      rfl

/-- C9, witness on the two-byte filter [0, 6]. -/
theorem rdb_bloom_match_inbounds_witness :
    2 ≤ ([0, 6] : List Nat).length ∧
    (8 ≤ (([0, 6] : List Nat).length - 1) * 8 ∧
      (∀ h : Nat, h % ((([0, 6] : List Nat).length - 1) * 8) / 8
        < ([0, 6] : List Nat).length - 1) ∧
      (rdb_bloom_match_ (fun _ => 0) bloom_default [0, 6] []).isSome = true) :=
  ⟨by decide,
    rdb_bloom_match_inbounds (fun _ => 0) bloom_default [0, 6] [] (by decide)⟩

/-! Claim C1: no false negatives. -/

theorem foldl_add_length (hashFn : HashFn) (bloom : rdb_bloom_t) (K : List Key)
    (bits : Nat) :
    ∀ buf : List Nat,
      (K.foldl (fun d kk => rdb_bloom_add_ hashFn bloom d kk bits) buf).length
        = buf.length := by
  induction K with
  | nil => intro buf; rfl
  | cons hd tl ih =>
    intro buf
    simp only [List.foldl_cons]
    rw [ih]
    simp only [rdb_bloom_add_, rdb_bloom_add_impl]
    exact length_addLoop _ _ _ _ _

theorem foldl_add_mono (hashFn : HashFn) (bloom : rdb_bloom_t) (K : List Key)
    (bits pos : Nat) :
    ∀ buf : List Nat, bitGet buf pos = true →
      bitGet (K.foldl (fun d kk => rdb_bloom_add_ hashFn bloom d kk bits) buf)
        pos = true := by
  induction K with
  | nil => intro buf hp; exact hp
  | cons hd tl ih =>
    intro buf hp
    simp only [List.foldl_cons]
    refine ih _ ?_
    simp only [rdb_bloom_add_, rdb_bloom_add_impl]
    exact addLoop_mono _ _ _ _ _ _ hp

theorem add_sets_probe (hashFn : HashFn) (bloom : rdb_bloom_t) (buf : List Nat)
    (key : Key) (bits : Nat) (hbits : 0 < bits) (hsz : bits ≤ 8 * buf.length)
    (i : Nat) (hi : i < bloom.k) :
    bitGet (rdb_bloom_add_ hashFn bloom buf key bits)
      (bloomPos (rdb_bloom_hash hashFn key)
        (bloomDelta (rdb_bloom_hash hashFn key)) bits i) = true := by
  simp only [rdb_bloom_add_, rdb_bloom_add_impl, bloomPos]
  rw [addLoop_bitGet _ _ _ _ _ _ hbits hsz (rdb_bloom_hash_lt hashFn key)]
  exact Or.inr ⟨i, hi, rfl⟩

theorem foldl_add_sets (hashFn : HashFn) (bloom : rdb_bloom_t) (K : List Key)
    (key : Key) (bits : Nat) (hbits : 0 < bits) :
    ∀ buf : List Nat, bits ≤ 8 * buf.length → key ∈ K →
      ∀ i < bloom.k,
        bitGet (K.foldl (fun d kk => rdb_bloom_add_ hashFn bloom d kk bits) buf)
          (bloomPos (rdb_bloom_hash hashFn key)
            (bloomDelta (rdb_bloom_hash hashFn key)) bits i) = true := by
  induction K with
  | nil =>
    intro buf _ hkey
    simp at hkey
  | cons hd tl ih =>
    intro buf hsz hkey i hi
    simp only [List.foldl_cons]
    rcases List.mem_cons.mp hkey with heq | htl
    · subst heq
      exact foldl_add_mono hashFn bloom tl bits _ _
        (add_sets_probe hashFn bloom buf key bits hbits hsz i hi)
    · refine ih _ ?_ htl i hi
      have hl : (rdb_bloom_add_ hashFn bloom buf hd bits).length = buf.length := by
        simp only [rdb_bloom_add_, rdb_bloom_add_impl]
        exact length_addLoop _ _ _ _ _
      rw [hl]
      exact hsz

theorem match_of_all_probes (hashFn : HashFn) (bloom : rdb_bloom_t)
    (arr : List Nat) (kk : Nat) (key : Key)
    (hm : 1 ≤ arr.length) (hkk : kk ≤ 30)
    (hall : ∀ i < kk,
      bitGet arr (bloomPos (rdb_bloom_hash hashFn key)
        (bloomDelta (rdb_bloom_hash hashFn key)) (8 * arr.length) i) = true) :
    rdb_bloom_match_ hashFn bloom (arr ++ [kk]) key = some true := by
  simp only [rdb_bloom_match_, rdb_bloom_match_impl]
  have hL : (arr ++ [kk]).length = arr.length + 1 := by simp
  rw [hL]
  rw [if_neg (by omega : ¬ arr.length + 1 < 2)]
  have htrail : (arr ++ [kk]).getD (arr.length + 1 - 1) 0 = kk := by
    simp only [Nat.add_sub_cancel]
    rw [List.getD_eq_getElem?_getD, List.getElem?_concat_length]
    rfl
  rw [htrail]
  rw [if_neg (by omega : ¬ kk > 30)]
  have hb : 0 < (arr.length + 1 - 1) * 8 := by omega
  have hsz : (arr.length + 1 - 1) * 8 ≤ 8 * (arr ++ [kk]).length := by
    rw [hL]
    omega
  rw [matchLoop_eq (arr ++ [kk]) ((arr.length + 1 - 1) * 8) _ _ _ hb hsz
    (rdb_bloom_hash_lt hashFn key)]
  have hprop : ∀ i < kk,
      bitGet (arr ++ [kk])
        (u32 (rdb_bloom_hash hashFn key +
          i * bloomDelta (rdb_bloom_hash hashFn key)) % ((arr.length + 1 - 1) * 8))
        = true := by
    intro i hi
    have hsimp : (arr.length + 1 - 1) * 8 = 8 * arr.length := by omega
    rw [hsimp]
    have hmod : u32 (rdb_bloom_hash hashFn key +
        i * bloomDelta (rdb_bloom_hash hashFn key)) % (8 * arr.length)
        < 8 * arr.length := Nat.mod_lt _ (by omega)
    rw [bitGet_append _ _ _ (by omega)]
    exact hall i hi
  rw [decide_eq_true hprop]

set_option linter.unusedVariables false in
/-- C1: for every policy with 1 ≤ k ≤ 30, every key list K, and every buffer
of at least one byte, after invoking rdb_bloom_add_ on the buffer with
bits = 8 * length once per key of K, the encoded filter obtained by appending
one trailing byte holding k matches every key of K ("possibly present"). -/
theorem rdb_bloom_no_false_negatives (hashFn : HashFn) (bloom : rdb_bloom_t)
    (hk1 : 1 ≤ bloom.k) (hk30 : bloom.k ≤ 30) (K : List Key) (buf : List Nat)
    (hm : 1 ≤ buf.length) (key : Key) (hkey : key ∈ K) :
    rdb_bloom_match_ hashFn bloom
      (K.foldl (fun d kk => rdb_bloom_add_ hashFn bloom d kk (8 * buf.length)) buf
        ++ [bloom.k]) key = some true := by
  have hlen :
      (K.foldl (fun d kk => rdb_bloom_add_ hashFn bloom d kk (8 * buf.length))
        buf).length = buf.length :=
    foldl_add_length hashFn bloom K (8 * buf.length) buf
  apply match_of_all_probes
  · rw [hlen]
    exact hm
  · exact hk30
  · intro i hi
    rw [hlen]
    exact foldl_add_sets hashFn bloom K key (8 * buf.length) (by omega) buf
      (by omega) hkey i hi

/-- C1, witness: the default policy (k = 6), key list [[1]], one-byte buffer
[0], constant-zero hash; the encoded filter matches the inserted key [1]. -/
theorem rdb_bloom_no_false_negatives_witness :
    1 ≤ bloom_default.k ∧ bloom_default.k ≤ 30 ∧ 1 ≤ ([0] : List Nat).length ∧
    ([1] : Key) ∈ [[1]] ∧
    rdb_bloom_match_ (fun _ => 0) bloom_default
      (([[1]] : List Key).foldl
        (fun d kk => rdb_bloom_add_ (fun _ => 0) bloom_default d kk
          (8 * ([0] : List Nat).length)) [0]
        ++ [bloom_default.k]) [1] = some true :=
  ⟨by decide, by decide, by decide, by decide,
    rdb_bloom_no_false_negatives (fun _ => 0) bloom_default (by decide)
      (by decide) [[1]] [0] (by decide) [1] (by decide)⟩
